import Mathlib

set_option maxRecDepth 8000

/-!
Shallow embedding of the dup-fu duplicate-file finder (main.go) and proofs
about its pipeline: the walker (`walk`), the fingerprint workers
(`checksum`, `calculateChecksum`), the aggregator (`findDuplicates`), and
the bulk actions (`listDuplicates`, `deleteDuplicates`, `moveDuplicates`,
`exportDuplicates`).

Modelling conventions:
- Go machine integers are modelled as `Nat`/`Int` with explicit reductions
  modulo 2^32 / 2^64 where the Go code uses uint32 / uint64 counters.
- A byte slice is a `List Nat` of values < 256; a file's content is the
  list of its bytes.
- Code that panics (`panicErr`, `log.Panicln`, a nil-pointer dereference)
  is modelled with an explicit aborted/crashed outcome: a Go panic in any
  of the program's goroutines crashes the whole process.
- The tview presentation calls (`right.AddItem`, `SetItemText`, log
  output) mutate only the UI and are outside the data model; the spec
  scopes the presentation layer out as an external collaborator.
-/

namespace DupFu

/-- Structure `tFileData` from main.go: path, size (int64), hash (byte slice,
`nil` until computed), modified (UnixNano, int64). -/
structure tFileData where
  path : String
  size : Int
  hash : List Nat
  modified : Int
deriving DecidableEq, Repr

/-- Kind of filesystem entry, as distinguished by `os.FileMode`:
`Mode().IsRegular()` is true exactly for `regular`; `IsDir()` exactly for
`dir`. The kinds are mutually exclusive in Go's mode bits. -/
inductive FileKind where
  | regular
  | dir
  | symlink
  | device
  | socket
deriving DecidableEq, Repr

/-- The part of `os.FileInfo` that `walk` consults: name/path, `Size()`,
`Mode()` kind, and `ModTime().UnixNano()`. -/
structure FileInfo where
  path : String
  size : Int
  kind : FileKind
  modTime : Int
deriving DecidableEq, Repr

/-- Outcome of one `walk` callback invocation (main.go lines 52-67):
either a record is sent on `fileChannel`, or the entry is skipped, or the
callback dereferences the nil `FileInfo` and panics. -/
inductive WalkOutcome where
  | emit (r : tFileData)
  | skip
  | nilDeref
deriving DecidableEq, Repr

/-- Function `walk` from main.go. `filepath.Walk` invokes it with `info = nil`
(modelled as `none`) exactly when `lstat` on the entry failed, in which
case `err ≠ nil`; for a directory whose listing failed it passes the
directory's own non-nil info together with the error. The body ignores
`err` (the `if err != nil` block is an empty TODO), then evaluates
`info.Mode()`: on a nil info that is a nil-pointer dereference. -/
def walk (info : Option FileInfo) (err : Bool) : WalkOutcome :=
  match info with
  | none => WalkOutcome.nilDeref
  | some i =>
    if ¬ (i.kind = FileKind.regular) then WalkOutcome.skip
    else if i.kind = FileKind.dir then WalkOutcome.skip
    else if 0 < i.size then
      WalkOutcome.emit { path := i.path, size := i.size, hash := [], modified := i.modTime }
    else WalkOutcome.skip

/-
CRC-32 (IEEE), as computed by `crc32.New(crc32.IEEETable)` streaming the
file content and finishing with `h.Sum(nil)`: reflected polynomial
0xEDB88320, initial value 0xFFFFFFFF, final xor 0xFFFFFFFF; `Sum`
serialises the 32-bit digest big-endian into four bytes. The table-driven
Go implementation computes exactly the bit-at-a-time recurrence below.
-/

/-- One bit-step of the reflected CRC-32 recurrence. -/
def crc32Round (c : Nat) : Nat :=
  if c % 2 = 1 then (c / 2) ^^^ 0xEDB88320 else c / 2

/-- Absorb one byte into a CRC-32 state. -/
def crc32Byte (c b : Nat) : Nat :=
  (crc32Round ∘ crc32Round ∘ crc32Round ∘ crc32Round ∘
   crc32Round ∘ crc32Round ∘ crc32Round ∘ crc32Round) (c ^^^ (b % 256))

/-- Run the CRC-32 state over a byte sequence. -/
def crc32Update (c : Nat) (bs : List Nat) : Nat :=
  bs.foldl crc32Byte c

/-- Value of `Sum32()` for the IEEE CRC-32 of a byte sequence. -/
def crc32Sum32 (bs : List Nat) : Nat :=
  crc32Update 0xFFFFFFFF bs ^^^ 0xFFFFFFFF

/-- Result of `h.Sum(nil)`: the digest as four big-endian bytes, the form stored in
`tFileData.hash`. -/
def crc32SumBytes (bs : List Nat) : List Nat :=
  let s := crc32Sum32 bs
  [s / 2 ^ 24 % 256, s / 2 ^ 16 % 256, s / 2 ^ 8 % 256, s % 256]

/-- The bytes of a string, as fed to the hash when the file holds that
text (byte values; ASCII in all examples used here). -/
def stringBytes (s : String) : List Nat :=
  s.data.map Char.toNat

/-- What reading a file back can yield for the fingerprint worker: the
full content stream, or an open/read failure. -/
inductive ReadResult where
  | content (bs : List Nat)
  | ioFailure
deriving DecidableEq, Repr

/-- A filesystem view for the fingerprint stage: what `os.Open` +
`io.CopyBuffer` deliver for each path. -/
def ReadFs : Type := String → ReadResult

/-- Function `checksum` from main.go (lines 69-80): open the file, stream it
through CRC-32 with a bounded buffer, return the digest bytes and the
byte count actually copied. An open error hits `panicErr` and a read
error hits `log.Panicln`: both panic, modelled as `Except.error`. -/
def checksum (r : ReadResult) : Except Unit (List Nat × Nat) :=
  match r with
  | ReadResult.ioFailure => Except.error ()
  | ReadResult.content bs => Except.ok (crc32SumBytes bs, bs.length)

/-- Hash a read result (the first component of `checksum` when it does
not panic); used to state closed-form lemmas about the worker. -/
def hashOfRead (r : ReadResult) : List Nat :=
  match r with
  | ReadResult.ioFailure => []
  | ReadResult.content bs => crc32SumBytes bs

/-- Whether `checksum` would succeed on this read result. -/
def readOk (r : ReadResult) : Bool :=
  match r with
  | ReadResult.ioFailure => false
  | ReadResult.content _ => true

/-- Function `calculateChecksum` from main.go (lines 205-210): the worker loop
`for data := range fileChannel` sets `data.hash, _ = checksum(data.path)`
— the byte count returned by `checksum` is discarded, never compared with
`data.size` — and forwards the record on `checksumChannel`. A panic
inside `checksum` kills the worker (and the process), so the remaining
queued records are never processed. Result: the records forwarded, and
whether the worker panicked. -/
def calculateChecksum (fs : ReadFs) : List tFileData → List tFileData × Bool
  | [] => ([], false)
  | d :: rest =>
    match checksum (fs d.path) with
    | Except.error _ => ([], true)
    | Except.ok (h, _) =>
      let out := calculateChecksum fs rest
      ({ d with hash := h } :: out.1, out.2)

/-
The aggregator follows.
-/

/-
The aggregator: `findDuplicates` (main.go lines 212-249). It is the single
consumer of `checksumChannel` and the only writer of `duplicates` and
`stats`. The Go map `duplicates : map[string][]tFileData` is modelled as
an association list with map-assignment semantics (replace the binding if
present, append otherwise); the aggregator only ever assigns, so keys stay
distinct by construction.
-/

/-- Reduction modulo 2^32, for the uint32 counters `stats.count` and
`stats.duplicates`. -/
def u32 (n : Nat) : Nat := n % 2 ^ 32

/-- Reduction modulo 2^64, for the uint64 counters `stats.size` and
`stats.duplicateSize`. -/
def u64 (n : Nat) : Nat := n % 2 ^ 64

/-- Go's `uint64(x)` conversion of an int64, two's-complement. File sizes
reaching the aggregator are positive, so this is just `toNat` there. -/
def sizeU64 (i : Int) : Nat := (i % (2 ^ 64 : Int)).toNat

/-- Lowercase hex digit, as printed by `fmt.Sprintf` with the x verb. -/
def hexDigit (n : Nat) : Char :=
  if n < 10 then Char.ofNat (48 + n) else Char.ofNat (87 + n)

/-- Output of `fmt.Sprintf` with the x verb applied to a byte slice: two lowercase
hex digits per byte. This is the registry key built from `d.hash`. -/
def hexOfBytes (bs : List Nat) : String :=
  String.mk (bs.foldr (fun b acc => hexDigit (b / 16 % 16) :: hexDigit (b % 16) :: acc) [])

/-- The comparison closure passed to `sort.Slice`:
`list[i].modified < list[j].modified`. -/
def modLt (a b : tFileData) : Prop := a.modified < b.modified

instance (a b : tFileData) : Decidable (modLt a b) := by
  unfold modLt; infer_instance

/-- The ordering the groups are claimed to satisfy: non-decreasing
modified time. -/
def modLe (a b : tFileData) : Prop := a.modified ≤ b.modified

instance (a b : tFileData) : Decidable (modLe a b) := by
  unfold modLe; infer_instance

/-- One comparison/swap of the gap-6 Shell pass `sort.Slice` runs before
its insertion sort: swap positions `i-6` and `i` when the later element
compares strictly smaller. -/
def gap6Step (l : List tFileData) (i : Nat) : List tFileData :=
  match l.get? i, l.get? (i - 6) with
  | some a, some b => if modLt a b then (l.set i b).set (i - 6) a else l
  | _, _ => l

/-- The gap-6 Shell pass over positions 6..len-1, in ascending order. -/
def shellPass6 (l : List tFileData) : List tFileData :=
  (List.range l.length).foldl (fun acc i => if 6 ≤ i then gap6Step acc i else acc) l

/-- Insert into a sorted-so-far prefix: the element moves left past every
strictly-greater element and stops at the first element not greater, i.e.
after any element with an equal key — exactly the inner loop of the
library insertion sort. -/
def insertOrdered (x : tFileData) : List tFileData → List tFileData
  | [] => [x]
  | y :: l => if modLt x y then x :: y :: l else y :: insertOrdered x l

/-- The insertion sort `sort.Slice` finishes with: fold the elements left
to right, inserting each into the sorted prefix. -/
def insertionSortGo (l : List tFileData) : List tFileData :=
  l.foldl (fun acc x => insertOrdered x acc) []

/-- The call `sort.Slice(list, func(i,j) ...)` as made in `findDuplicates`. For
slices of at most 12 elements (Go's cutoff) the library runs exactly the
gap-6 Shell pass followed by an insertion sort, embedded here verbatim.
Longer slices are first quicksort-partitioned; that path is also an
unstable comparison sort, so every sortedness/permutation fact proved of
this function holds of it as well, and all concrete evaluations below use
slices of at most 12 elements, where the embedding is exact. -/
def sortSliceByModified (l : List tFileData) : List tFileData :=
  insertionSortGo (shellPass6 l)

/-- Look up a key in the registry (Go map read `duplicates[hash]`,
together with its `exist` flag via the `Option`). -/
def lookupReg (reg : List (String × List tFileData)) (k : String) :
    Option (List tFileData) :=
  match reg with
  | [] => none
  | (k2, g) :: rest => if k2 = k then some g else lookupReg rest k

/-- Go map assignment `duplicates[hash] = list`: replace the binding if
the key is present, append it otherwise. -/
def setReg (reg : List (String × List tFileData)) (k : String)
    (v : List tFileData) : List (String × List tFileData) :=
  match reg with
  | [] => [(k, v)]
  | (k2, g) :: rest => if k2 = k then (k, v) :: rest else (k2, g) :: setReg rest k v

/-- The aggregator-owned state: the `duplicates` registry and the stats
fields `findDuplicates` writes (`count`, `size`, `duplicates`,
`duplicateSize` of `tStats`; `seconds` and `complted` are written
elsewhere). -/
structure AggState where
  registry : List (String × List tFileData)
  count : Nat
  size : Nat
  duplicates : Nat
  duplicateSize : Nat
deriving DecidableEq, Repr

/-- The aggregator state at program start: empty map, zeroed stats. -/
def initAgg : AggState :=
  { registry := [], count := 0, size := 0, duplicates := 0, duplicateSize := 0 }

/-- One iteration of the `findDuplicates` consumer loop on an incoming
fingerprinted record `d`: bump `stats.count` and `stats.size`, key by the
hex of the hash; if the key exists, append `d`, re-sort the group with
`sort.Slice` by modified time, and bump `stats.duplicates` by one and
`stats.duplicateSize` by `d.size`; otherwise start a singleton group.
Either way store the group back under the key. (The `right.AddItem` /
`SetItemText` calls update only the UI list.) -/
def findDuplicatesStep (s : AggState) (d : tFileData) : AggState :=
  let count := u32 (s.count + 1)
  let size := u64 (s.size + sizeU64 d.size)
  let hash := hexOfBytes d.hash
  match lookupReg s.registry hash with
  | some list =>
    { registry := setReg s.registry hash (sortSliceByModified (list ++ [d]))
      count := count
      size := size
      duplicates := u32 (s.duplicates + 1)
      duplicateSize := u64 (s.duplicateSize + sizeU64 d.size) }
  | none =>
    { registry := setReg s.registry hash [d]
      count := count
      size := size
      duplicates := s.duplicates
      duplicateSize := s.duplicateSize }

/-- Function `findDuplicates` run over a finite stream of fingerprinted records
(the successive values received on `checksumChannel`), starting from the
program's initial state. Any moment of the consumer's life is
`findDuplicates rs` for the prefix `rs` received so far. -/
def findDuplicates (rs : List tFileData) : AggState :=
  rs.foldl findDuplicatesStep initAgg

/-
The actions (main.go lines 97-158). Go iterates the `duplicates` map in
its unspecified map order; the association-list order stands in for one
such order, and all set-level statements are order-independent.
-/

/-- Function `listDuplicates` from main.go: for every group with at least two
members, collect the paths of `list[1:]` (every member but the head). -/
def listDuplicates : List (String × List tFileData) → List String
  | [] => []
  | (_, g) :: rest =>
    (if g.length < 2 then [] else g.tail.map (fun r => r.path)) ++ listDuplicates rest

/-- Function `deleteDuplicates` from main.go: walk the duplicate paths in order,
`os.Remove` each; `panicErr` aborts the whole run at the first failing
removal (`fails p = true` models `os.Remove p` returning an error, in
which case the file is not removed). Result: the paths actually removed,
and whether the run panicked. On a clean run the logged count equals the
number of removed paths. -/
def deleteDuplicates (fails : String → Bool) : List String → List String × Bool
  | [] => ([], false)
  | p :: rest =>
    if fails p then ([], true)
    else
      let out := deleteDuplicates fails rest
      (p :: out.1, out.2)

/-- Function `filepath.Base` for slash-separated paths: the last element after
trailing separators are removed; "." for the empty path, "/" when the
path is only separators. -/
def base (p : String) : String :=
  if p = "" then "." else
    let rev := p.data.reverse.dropWhile (fun c => c = '/')
    if rev = [] then "/"
    else String.mk ((rev.takeWhile (fun c => c ≠ '/')).reverse)

/-- Association lookup for the destination-directory model. -/
def lookupStr (m : List (String × String)) (k : String) : Option String :=
  match m with
  | [] => none
  | (k2, v) :: rest => if k2 = k then some v else lookupStr rest k

/-- Overwriting assignment for the destination-directory model. -/
def setStr (m : List (String × String)) (k : String) (v : String) :
    List (String × String) :=
  match m with
  | [] => [(k, v)]
  | (k2, v2) :: rest => if k2 = k then (k, v) :: rest else (k2, v2) :: setStr rest k v

/-- Function `moveDuplicates` from main.go: after `ensureTargetDir`, rename each
duplicate path to `targetDir/Base(path)`. The destination directory is
modelled as a map from base name to the source path whose file now lives
there; `os.Rename` onto an existing name replaces it (POSIX semantics),
which the fold's overwriting assignment captures. Every rename is assumed
to succeed (a failure would `panicErr`). -/
def moveDuplicates (paths : List String) : List (String × String) :=
  paths.foldl
    (fun dst p =>
      match lookupStr dst (base p) with
      | some _ => setStr dst (base p) p
      | none => dst ++ [(base p, p)])
    []

/-- Function `exportDuplicates` from main.go (content written to
`targetDir/duplicates.txt`): for each duplicate path, `WriteString(path)`
then `WriteString("\n")`. The file content is the resulting character
stream. -/
def exportContent (reg : List (String × List tFileData)) : List Char :=
  (listDuplicates reg).foldr (fun p acc => p.data ++ '\n' :: acc) []

/-- Observable outcome of `exportDuplicates`: the manifest content and the
count it logs (one increment per path written). -/
def exportDuplicates (reg : List (String × List tFileData)) : List Char × Nat :=
  (exportContent reg, (listDuplicates reg).length)

/-- Split a character stream at every newline; always returns at least
one (possibly empty) segment, like splitting text into lines. -/
def splitNl : List Char → List (List Char)
  | [] => [[]]
  | c :: cs =>
    if c = '\n' then [] :: splitNl cs
    else
      match splitNl cs with
      | l :: ls => (c :: l) :: ls
      | [] => [[c]]

/-- Parse a newline-terminated manifest back as its list of lines (the
final empty segment after the last newline is not a line). -/
def linesOf (content : List Char) : List (List Char) :=
  (splitNl content).dropLast

/-
The concurrent pipeline as an interleaving transition system. `main`
starts `scan` (filepath.Walk, then `stats.complted = true`), two
`calculateChecksum` workers, and one `findDuplicates` consumer, connected
by the buffered channels `fileChannel` and `checksumChannel`. A state
records the files the walker has yet to emit, the contents of the two
channels, the aggregator state, and the `complted` flag; each goroutine's
atomic actions are the steps. Channel capacities only restrict which
states are reachable, so omitting them is sound for existence of the
reachable states exhibited below.
-/

/-- A snapshot of the pipeline's shared state. -/
structure PipeState where
  pending : List tFileData
  fileQueue : List tFileData
  checksumQueue : List tFileData
  agg : AggState
  complted : Bool
deriving DecidableEq, Repr

/-- The pipeline state when `main` has started the goroutines and the
walker will emit `files` (in traversal order). -/
def initPipe (files : List tFileData) : PipeState :=
  { pending := files, fileQueue := [], checksumQueue := [], agg := initAgg
    complted := false }

/-- One atomic action of one goroutine.
`walkEmit`: `walk` sends the next record on `fileChannel`.
`walkDone`: `filepath.Walk` returned, so `scan` sets `stats.complted =
  true` (main.go line 202) — its only precondition is that traversal
  ended; it does not consult either channel or any in-flight count.
`workerTake`: a `calculateChecksum` worker receives a record, fingerprints
  it (a successful read) and sends it on `checksumChannel`.
`aggTake`: `findDuplicates` receives a fingerprinted record and folds it
  into the registry and stats. -/
inductive PipeStep (fs : ReadFs) : PipeState → PipeState → Prop
  | walkEmit (d : tFileData) (rest q cq : List tFileData) (a : AggState) (c : Bool) :
      PipeStep fs ⟨d :: rest, q, cq, a, c⟩ ⟨rest, q ++ [d], cq, a, c⟩
  | walkDone (q cq : List tFileData) (a : AggState) :
      PipeStep fs ⟨[], q, cq, a, false⟩ ⟨[], q, cq, a, true⟩
  | workerTake (d : tFileData) (bs : List Nat) (p q cq : List tFileData)
      (a : AggState) (c : Bool) :
      fs d.path = ReadResult.content bs →
      PipeStep fs ⟨p, d :: q, cq, a, c⟩
        ⟨p, q, cq ++ [{ d with hash := crc32SumBytes bs }], a, c⟩
  | aggTake (d : tFileData) (p q cq : List tFileData) (a : AggState) (c : Bool) :
      PipeStep fs ⟨p, q, d :: cq, a, c⟩ ⟨p, q, cq, findDuplicatesStep a d, c⟩

/-- Reachability from a given start state by interleaved goroutine
actions. -/
def PipeReach (fs : ReadFs) : PipeState → PipeState → Prop :=
  Relation.ReflTransGen (PipeStep fs)

/-
Spec-side measuring functions used to state the claims about the
aggregator's counters and groups.
-/

/-- Sum over the registry's groups of (memberCount - 1) — with nonempty
groups this is the claimed value of `duplicateCount` (max(0, n-1) = n-1
for n at least 1, and no empty group is ever stored). -/
def groupExcessSum : List (String × List tFileData) → Nat
  | [] => 0
  | (_, g) :: rest => (g.length - 1) + groupExcessSum rest

/-- Sum of the sizes of all non-canonical members (every member except
index 0) over all groups, converted as the code converts sizes. -/
def nonCanonicalBytes : List (String × List tFileData) → Nat
  | [] => 0
  | (_, g) :: rest => (g.tail.map (fun r => sizeU64 r.size)).sum + nonCanonicalBytes rest

/-- The sizes the aggregator actually accumulates into
`stats.duplicateSize`: for each record of the stream, its size if its key
was already present when it arrived (i.e. it is not the first arrival of
its fingerprint), else nothing. `seen` is the list of keys already
present. -/
def joiningBytes (seen : List String) : List tFileData → Nat
  | [] => 0
  | r :: rs =>
    let h := hexOfBytes r.hash
    (if h ∈ seen then sizeU64 r.size else 0) +
      joiningBytes (if h ∈ seen then seen else seen ++ [h]) rs

/-- The keys of a registry, in binding order. -/
def regKeys (reg : List (String × List tFileData)) : List String :=
  reg.map (fun p => p.1)

/-
Concrete instances used to settle the claims on explicit inputs. All the
groups involved have at most 12 members, where the `sort.Slice` embedding
is exact.
-/

/-- Two records with the same fingerprint: the second arrives later but
is older (smaller modified time) and has a different size — a CRC-32
collision between files of different lengths makes this reachable. -/
def rsC1 : List tFileData := [⟨"q1", 10, [0], 5⟩, ⟨"q2", 20, [0], 3⟩]

/-- Seven same-fingerprint records: pA and pB tie at modified time 10
(pA arrives first), then four later files, then pG, older than all. -/
def rsC2 : List tFileData :=
  [⟨"pA", 1, [0], 10⟩, ⟨"pB", 1, [0], 10⟩, ⟨"pC", 1, [0], 20⟩, ⟨"pD", 1, [0], 30⟩,
   ⟨"pE", 1, [0], 40⟩, ⟨"pF", 1, [0], 50⟩, ⟨"pG", 1, [0], 5⟩]

/-- The group the aggregator actually stores after consuming `rsC2`:
the gap-6 swap moves pA behind pB, and the stable insertion sort then
preserves that inversion of the tied pair. -/
def gC2 : List tFileData :=
  [⟨"pG", 1, [0], 5⟩, ⟨"pB", 1, [0], 10⟩, ⟨"pA", 1, [0], 10⟩, ⟨"pC", 1, [0], 20⟩,
   ⟨"pD", 1, [0], 30⟩, ⟨"pE", 1, [0], 40⟩, ⟨"pF", 1, [0], 50⟩]

/-- A filesystem view for the worker: the file at path "short" reads back
three bytes; every other open/read fails. -/
def fsC3 : ReadFs := fun p =>
  if p = "short" then ReadResult.content [1, 2, 3] else ReadResult.ioFailure

/-- A record whose discovery-time size (100) disagrees with the three
bytes its file actually yields. -/
def dMismatch : tFileData := ⟨"short", 100, [], 0⟩

/-- A record whose file fails to read. -/
def dBad : tFileData := ⟨"bad", 4, [], 1⟩

/-- Model of `os.Remove` outcomes for the delete counterexample: removing
"p2" fails with a permission error, everything else succeeds. -/
def failsC4 : String → Bool := fun p => p = "p2"

/-- One group of three same-fingerprint files whose two duplicates share
the base name "f". -/
def regC5 : List (String × List tFileData) :=
  [("k", [⟨"c/f", 1, [0], 0⟩, ⟨"a/f", 1, [0], 1⟩, ⟨"b/f", 1, [0], 2⟩])]

/-- A registry whose single duplicate path contains a newline (legal in
POSIX file names) and is relative. -/
def regC7 : List (String × List tFileData) :=
  [("k", [⟨"/c", 1, [0], 0⟩, ⟨"a\nb", 1, [0], 1⟩])]

/-- A registry with newline-free paths, for the amended export claim. -/
def regW7 : List (String × List tFileData) :=
  [("k", [⟨"/c", 1, [0], 0⟩, ⟨"/d", 2, [0], 1⟩])]

/-- A filesystem view where every read succeeds with empty content. -/
def fsPipe : ReadFs := fun _ => ReadResult.content []

/-- A single discovered file for the completion-flag counterexample. -/
def fC9 : tFileData := ⟨"f", 1, [], 0⟩

/-- The pipeline state after the walker emitted `fC9` and finished, with
both fingerprint workers and the aggregator not yet scheduled: the flag
is set while the job still sits in `fileChannel`. -/
def sC9 : PipeState := ⟨[], [fC9], [], initAgg, true⟩

/-- The record a worker produces for a file "/x" of 8 bytes containing
"plumless". -/
def rPlum : tFileData := ⟨"/x", 8, crc32SumBytes (stringBytes "plumless"), 1⟩

/-- The record a worker produces for a file "/y" reported at a different
size, containing "buckeroo" — a different content with the same CRC-32. -/
def rBuck : tFileData := ⟨"/y", 9, crc32SumBytes (stringBytes "buckeroo"), 2⟩

/-- A single regular-file record used to witness universally quantified
claims. -/
def rW : tFileData := ⟨"/a", 5, [], 7⟩

/-
Lemmas about the registry's map operations.
-/

theorem lookupReg_setReg (reg : List (String × List tFileData)) (k q : String)
    (v : List tFileData) :
    lookupReg (setReg reg k v) q = if q = k then some v else lookupReg reg q := by
  induction reg with
  | nil =>
    by_cases hq : q = k
    · subst hq; simp [setReg, lookupReg]
    · have hk : ¬ k = q := fun h => hq h.symm
      simp [setReg, lookupReg, hq, hk]
  | cons p rest ih =>
    obtain ⟨k2, g⟩ := p
    by_cases h2 : k2 = k
    · subst h2
      by_cases hq : q = k2
      · subst hq; simp [setReg, lookupReg]
      · have hk : ¬ k2 = q := fun h => hq h.symm
        simp [setReg, lookupReg, hq, hk]
    · by_cases hq : q = k2
      · subst hq
        have hqk : ¬ q = k := fun h => h2 h
        simp [setReg, lookupReg, h2, hqk]
      · have hk : ¬ k2 = q := fun h => hq h.symm
        simp [setReg, lookupReg, h2, hk, ih, hq]

theorem lookupReg_none_iff (reg : List (String × List tFileData)) (k : String) :
    lookupReg reg k = none ↔ k ∉ regKeys reg := by
  induction reg with
  | nil => simp [lookupReg, regKeys]
  | cons p rest ih =>
    obtain ⟨k2, g⟩ := p
    by_cases h : k2 = k
    · subst h
      simp [lookupReg, regKeys]
    · simp [lookupReg, regKeys, h, ih]
      intro hk
      exact fun hkk => h hkk.symm

theorem regKeys_cons (k : String) (g : List tFileData)
    (rest : List (String × List tFileData)) :
    regKeys ((k, g) :: rest) = k :: regKeys rest := rfl

theorem regKeys_setReg_present (reg : List (String × List tFileData)) (k : String)
    (v : List tFileData) (h : k ∈ regKeys reg) :
    regKeys (setReg reg k v) = regKeys reg := by
  induction reg with
  | nil => simp [regKeys] at h
  | cons p rest ih =>
    obtain ⟨k2, g⟩ := p
    by_cases h2 : k2 = k
    · subst h2
      simp [setReg, regKeys_cons]
    · have hk : k ∈ regKeys rest := by
        rw [regKeys_cons, List.mem_cons] at h
        rcases h with h | h
        · exact absurd h.symm h2
        · exact h
      rw [setReg, if_neg h2, regKeys_cons, regKeys_cons, ih hk]

theorem regKeys_setReg_absent (reg : List (String × List tFileData)) (k : String)
    (v : List tFileData) (h : k ∉ regKeys reg) :
    regKeys (setReg reg k v) = regKeys reg ++ [k] := by
  induction reg with
  | nil => simp [setReg, regKeys]
  | cons p rest ih =>
    obtain ⟨k2, g⟩ := p
    have h2 : ¬ k2 = k := by
      intro hk; exact h (by rw [regKeys_cons, hk]; exact List.mem_cons_self k (regKeys rest))
    have hrest : k ∉ regKeys rest := by
      intro hk; exact h (by rw [regKeys_cons]; exact List.mem_cons_of_mem k2 hk)
    rw [setReg, if_neg h2, regKeys_cons, regKeys_cons, ih hrest, List.cons_append]

/-
Lemmas about the embedded `sort.Slice`: it preserves length and members,
and its insertion-sort phase always delivers a list sorted by
non-decreasing modified time.
-/

theorem length_insertOrdered (x : tFileData) (l : List tFileData) :
    (insertOrdered x l).length = l.length + 1 := by
  induction l with
  | nil => rfl
  | cons y l ih =>
    by_cases h : modLt x y <;> simp [insertOrdered, h, ih]

theorem mem_insertOrdered (z x : tFileData) (l : List tFileData) :
    z ∈ insertOrdered x l ↔ z = x ∨ z ∈ l := by
  induction l with
  | nil => simp [insertOrdered]
  | cons y l ih =>
    by_cases h : modLt x y
    · simp [insertOrdered, h]
    · simp [insertOrdered, h, ih]
      tauto

theorem length_insertionSortGo_aux (l acc : List tFileData) :
    (l.foldl (fun acc x => insertOrdered x acc) acc).length = acc.length + l.length := by
  induction l generalizing acc with
  | nil => simp
  | cons x l ih =>
    simp [ih, length_insertOrdered]
    omega

theorem length_insertionSortGo (l : List tFileData) :
    (insertionSortGo l).length = l.length := by
  simpa using length_insertionSortGo_aux l []

theorem mem_insertionSortGo_aux (l acc : List tFileData) (z : tFileData)
    (h : z ∈ l.foldl (fun acc x => insertOrdered x acc) acc) : z ∈ acc ∨ z ∈ l := by
  induction l generalizing acc with
  | nil => simpa using h
  | cons x l ih =>
    rcases ih (insertOrdered x acc) h with h2 | h2
    · rcases (mem_insertOrdered z x acc).mp h2 with h3 | h3
      · right; simp [h3]
      · left; exact h3
    · right; simp [h2]

theorem mem_insertionSortGo (l : List tFileData) (z : tFileData)
    (h : z ∈ insertionSortGo l) : z ∈ l := by
  rcases mem_insertionSortGo_aux l [] z h with h2 | h2
  · simp at h2
  · exact h2

theorem length_gap6Step (l : List tFileData) (i : Nat) :
    (gap6Step l i).length = l.length := by
  unfold gap6Step
  split
  · split
    · simp
    · rfl
  · rfl

theorem mem_gap6Step (l : List tFileData) (i : Nat) (z : tFileData)
    (h : z ∈ gap6Step l i) : z ∈ l := by
  unfold gap6Step at h
  split at h
  case h_1 a b hi hj =>
    split at h
    case isTrue =>
      rcases List.mem_or_eq_of_mem_set h with h2 | h2
      · rcases List.mem_or_eq_of_mem_set h2 with h3 | h3
        · exact h3
        · exact h3 ▸ List.get?_mem hj
      · exact h2 ▸ List.get?_mem hi
    case isFalse => exact h
  case h_2 => exact h

theorem length_shellPass6 (l : List tFileData) : (shellPass6 l).length = l.length := by
  unfold shellPass6
  generalize List.range l.length = idxs
  induction idxs generalizing l with
  | nil => rfl
  | cons i idxs ih =>
    by_cases h : 6 ≤ i
    · simp only [List.foldl_cons, h, if_pos]
      rw [ih (gap6Step l i), length_gap6Step]
    · simp only [List.foldl_cons, h, if_neg (by omega : ¬ 6 ≤ i)]
      exact ih l

theorem mem_shellPass6 (l : List tFileData) (z : tFileData) (h : z ∈ shellPass6 l) :
    z ∈ l := by
  unfold shellPass6 at h
  revert h
  generalize List.range l.length = idxs
  induction idxs generalizing l with
  | nil => exact fun h => h
  | cons i idxs ih =>
    intro h
    by_cases h6 : 6 ≤ i
    · simp only [List.foldl_cons, h6, if_pos] at h
      exact mem_gap6Step l i z (ih (gap6Step l i) h)
    · simp only [List.foldl_cons, h6, if_neg (by omega : ¬ 6 ≤ i)] at h
      exact ih l h

theorem length_sortSliceByModified (l : List tFileData) :
    (sortSliceByModified l).length = l.length := by
  unfold sortSliceByModified
  rw [length_insertionSortGo, length_shellPass6]

theorem mem_sortSliceByModified (l : List tFileData) (z : tFileData)
    (h : z ∈ sortSliceByModified l) : z ∈ l :=
  mem_shellPass6 l z (mem_insertionSortGo (shellPass6 l) z h)

theorem pairwise_insertOrdered (x : tFileData) (l : List tFileData)
    (h : List.Pairwise modLe l) : List.Pairwise modLe (insertOrdered x l) := by
  induction l with
  | nil => simp [insertOrdered, List.pairwise_singleton]
  | cons y l ih =>
    rcases List.pairwise_cons.mp h with ⟨hy, hl⟩
    by_cases hlt : modLt x y
    · rw [show insertOrdered x (y :: l) = if modLt x y then x :: y :: l
          else y :: insertOrdered x l from rfl, if_pos hlt]
      refine List.pairwise_cons.mpr ⟨?_, h⟩
      intro z hz
      rcases List.mem_cons.mp hz with h2 | h2
      · exact h2 ▸ le_of_lt hlt
      · exact le_trans (le_of_lt hlt) (hy z h2)
    · rw [show insertOrdered x (y :: l) = if modLt x y then x :: y :: l
          else y :: insertOrdered x l from rfl, if_neg hlt]
      refine List.pairwise_cons.mpr ⟨?_, ih hl⟩
      intro z hz
      rcases (mem_insertOrdered z x l).mp hz with h2 | h2
      · subst h2
        exact Int.not_lt.mp hlt
      · exact hy z h2

theorem pairwise_insertionSortGo_aux (l acc : List tFileData)
    (h : List.Pairwise modLe acc) :
    List.Pairwise modLe (l.foldl (fun acc x => insertOrdered x acc) acc) := by
  induction l generalizing acc with
  | nil => exact h
  | cons x l ih => exact ih (insertOrdered x acc) (pairwise_insertOrdered x acc h)

theorem pairwise_insertionSortGo (l : List tFileData) :
    List.Pairwise modLe (insertionSortGo l) :=
  pairwise_insertionSortGo_aux l [] List.Pairwise.nil

theorem pairwise_sortSliceByModified (l : List tFileData) :
    List.Pairwise modLe (sortSliceByModified l) :=
  pairwise_insertionSortGo (shellPass6 l)

/-
Aggregator invariants.
-/

theorem groupExcessSum_setReg_present (reg : List (String × List tFileData))
    (k : String) (g v : List tFileData) (h : lookupReg reg k = some g) :
    groupExcessSum (setReg reg k v) + (g.length - 1) =
      groupExcessSum reg + (v.length - 1) := by
  induction reg with
  | nil => simp [lookupReg] at h
  | cons p rest ih =>
    obtain ⟨k2, g2⟩ := p
    by_cases h2 : k2 = k
    · rw [lookupReg, if_pos h2] at h
      cases h
      rw [setReg, if_pos h2]
      simp [groupExcessSum]
      omega
    · rw [lookupReg, if_neg h2] at h
      rw [setReg, if_neg h2]
      simp [groupExcessSum]
      have := ih h
      omega

theorem groupExcessSum_setReg_absent (reg : List (String × List tFileData))
    (k : String) (v : List tFileData) (h : lookupReg reg k = none) :
    groupExcessSum (setReg reg k v) = groupExcessSum reg + (v.length - 1) := by
  induction reg with
  | nil => simp [setReg, groupExcessSum]
  | cons p rest ih =>
    obtain ⟨k2, g2⟩ := p
    by_cases h2 : k2 = k
    · rw [lookupReg, if_pos h2] at h
      cases h
    · rw [lookupReg, if_neg h2] at h
      rw [setReg, if_neg h2]
      simp [groupExcessSum, ih h]
      omega

theorem findDuplicatesStep_present (s : AggState) (d : tFileData)
    (g : List tFileData)
    (hl : lookupReg s.registry (hexOfBytes d.hash) = some g) :
    findDuplicatesStep s d =
      { registry := setReg s.registry (hexOfBytes d.hash)
          (sortSliceByModified (g ++ [d]))
        count := u32 (s.count + 1)
        size := u64 (s.size + sizeU64 d.size)
        duplicates := u32 (s.duplicates + 1)
        duplicateSize := u64 (s.duplicateSize + sizeU64 d.size) } := by
  simp only [findDuplicatesStep, hl]

theorem findDuplicatesStep_absent (s : AggState) (d : tFileData)
    (hl : lookupReg s.registry (hexOfBytes d.hash) = none) :
    findDuplicatesStep s d =
      { registry := setReg s.registry (hexOfBytes d.hash) [d]
        count := u32 (s.count + 1)
        size := u64 (s.size + sizeU64 d.size)
        duplicates := s.duplicates
        duplicateSize := s.duplicateSize } := by
  simp only [findDuplicatesStep, hl]

/-- The part of the aggregator's invariant needed for the duplicate
counter: every stored group is nonempty, and `stats.duplicates` carries
(modulo 2^32) the sum over groups of (memberCount - 1). -/
def CountInv (s : AggState) : Prop :=
  (∀ k g, lookupReg s.registry k = some g → g ≠ []) ∧
    s.duplicates = u32 (groupExcessSum s.registry)

theorem countInv_init : CountInv initAgg := by
  constructor
  · intro k g h
    simp [initAgg, lookupReg] at h
  · rfl

theorem countInv_step (s : AggState) (d : tFileData) (h : CountInv s) :
    CountInv (findDuplicatesStep s d) := by
  obtain ⟨hne, hcnt⟩ := h
  cases hl : lookupReg s.registry (hexOfBytes d.hash) with
  | some g =>
    rw [findDuplicatesStep_present s d g hl]
    constructor
    · intro k g2 h2
      simp only at h2
      rw [lookupReg_setReg] at h2
      by_cases hk : k = hexOfBytes d.hash
      · rw [if_pos hk] at h2
        cases h2
        intro hemp
        have := length_sortSliceByModified (g ++ [d])
        rw [hemp] at this
        simp at this
      · rw [if_neg hk] at h2
        exact hne k g2 h2
    · have hglen : 1 ≤ g.length := by
        cases g with
        | nil => exact absurd rfl (hne _ _ hl)
        | cons a t => simp
      have hsum := groupExcessSum_setReg_present s.registry (hexOfBytes d.hash) g
        (sortSliceByModified (g ++ [d])) hl
      rw [length_sortSliceByModified] at hsum
      have hlen : (g ++ [d]).length - 1 = g.length := by simp
      rw [hlen] at hsum
      have hsum2 : groupExcessSum (setReg s.registry (hexOfBytes d.hash)
          (sortSliceByModified (g ++ [d]))) = groupExcessSum s.registry + 1 := by omega
      show u32 (s.duplicates + 1) = u32 (groupExcessSum (setReg s.registry
        (hexOfBytes d.hash) (sortSliceByModified (g ++ [d]))))
      rw [hsum2, hcnt]
      unfold u32
      omega
  | none =>
    rw [findDuplicatesStep_absent s d hl]
    constructor
    · intro k g2 h2
      simp only at h2
      rw [lookupReg_setReg] at h2
      by_cases hk : k = hexOfBytes d.hash
      · rw [if_pos hk] at h2
        cases h2
        simp
      · rw [if_neg hk] at h2
        exact hne k g2 h2
    · have hsum := groupExcessSum_setReg_absent s.registry (hexOfBytes d.hash) [d] hl
      show s.duplicates = u32 (groupExcessSum (setReg s.registry
        (hexOfBytes d.hash) [d]))
      rw [hsum]
      simpa using hcnt

theorem countInv_foldl (rs : List tFileData) (s : AggState) (h : CountInv s) :
    CountInv (rs.foldl findDuplicatesStep s) := by
  induction rs generalizing s with
  | nil => exact h
  | cons d rs ih => exact ih (findDuplicatesStep s d) (countInv_step s d h)

theorem lookupReg_mem_keys (reg : List (String × List tFileData)) (k : String)
    (g : List tFileData) (h : lookupReg reg k = some g) : k ∈ regKeys reg := by
  by_cases hk : k ∈ regKeys reg
  · exact hk
  · rw [(lookupReg_none_iff reg k).mpr hk] at h
    cases h

theorem duplicateSize_foldl (rs : List tFileData) (s : AggState)
    (hlt : s.duplicateSize < 2 ^ 64) :
    (rs.foldl findDuplicatesStep s).duplicateSize =
      u64 (s.duplicateSize + joiningBytes (regKeys s.registry) rs) := by
  induction rs generalizing s with
  | nil =>
    simp only [List.foldl_nil, joiningBytes, Nat.add_zero, u64]
    exact (Nat.mod_eq_of_lt hlt).symm
  | cons d rs ih =>
    rw [List.foldl_cons]
    cases hl : lookupReg s.registry (hexOfBytes d.hash) with
    | some g =>
      rw [findDuplicatesStep_present s d g hl,
        ih _ (by simp only; exact Nat.mod_lt _ (by norm_num))]
      have hmem : hexOfBytes d.hash ∈ regKeys s.registry := lookupReg_mem_keys _ _ _ hl
      simp only
      rw [regKeys_setReg_present _ _ _ hmem]
      show u64 (u64 (s.duplicateSize + sizeU64 d.size) +
        joiningBytes (regKeys s.registry) rs) = _
      rw [joiningBytes, if_pos hmem, if_pos hmem]
      unfold u64
      omega
    | none =>
      rw [findDuplicatesStep_absent s d hl, ih _ (by simpa only using hlt)]
      have hmem : hexOfBytes d.hash ∉ regKeys s.registry :=
        (lookupReg_none_iff _ _).mp hl
      simp only
      rw [regKeys_setReg_absent _ _ _ hmem]
      show u64 (s.duplicateSize + joiningBytes (regKeys s.registry ++
        [hexOfBytes d.hash]) rs) = _
      rw [joiningBytes, if_neg hmem, if_neg hmem]
      simp

/-- Sortedness invariant: every stored group is pairwise non-decreasing
in modified time. -/
def SortedInv (s : AggState) : Prop :=
  ∀ k g, lookupReg s.registry k = some g → List.Pairwise modLe g

theorem sortedInv_init : SortedInv initAgg := by
  intro k g h
  simp [initAgg, lookupReg] at h

theorem sortedInv_step (s : AggState) (d : tFileData) (h : SortedInv s) :
    SortedInv (findDuplicatesStep s d) := by
  cases hl : lookupReg s.registry (hexOfBytes d.hash) with
  | some g =>
    rw [findDuplicatesStep_present s d g hl]
    intro k g2 h2
    simp only at h2
    rw [lookupReg_setReg] at h2
    by_cases hk : k = hexOfBytes d.hash
    · rw [if_pos hk] at h2
      cases h2
      exact pairwise_sortSliceByModified (g ++ [d])
    · rw [if_neg hk] at h2
      exact h k g2 h2
  | none =>
    rw [findDuplicatesStep_absent s d hl]
    intro k g2 h2
    simp only at h2
    rw [lookupReg_setReg] at h2
    by_cases hk : k = hexOfBytes d.hash
    · rw [if_pos hk] at h2
      cases h2
      exact List.pairwise_singleton _ _
    · rw [if_neg hk] at h2
      exact h k g2 h2

theorem sortedInv_foldl (rs : List tFileData) (s : AggState) (h : SortedInv s) :
    SortedInv (rs.foldl findDuplicatesStep s) := by
  induction rs generalizing s with
  | nil => exact h
  | cons d rs ih => exact ih (findDuplicatesStep s d) (sortedInv_step s d h)

/-- Origin of group members: every member of every stored group was one
of the records consumed so far. -/
theorem mem_group_foldl (rs : List tFileData) (s : AggState) (k : String)
    (g : List tFileData) (r : tFileData)
    (hg : lookupReg (rs.foldl findDuplicatesStep s).registry k = some g)
    (hr : r ∈ g) :
    r ∈ rs ∨ ∃ k2 g2, lookupReg s.registry k2 = some g2 ∧ r ∈ g2 := by
  induction rs generalizing s with
  | nil =>
    right
    exact ⟨k, g, hg, hr⟩
  | cons d rs ih =>
    rw [List.foldl_cons] at hg
    rcases ih (findDuplicatesStep s d) hg with h2 | ⟨k2, g2, hl2, hr2⟩
    · left; exact List.mem_cons_of_mem d h2
    · cases hl : lookupReg s.registry (hexOfBytes d.hash) with
      | some g3 =>
        rw [findDuplicatesStep_present s d g3 hl] at hl2
        simp only at hl2
        rw [lookupReg_setReg] at hl2
        by_cases hk : k2 = hexOfBytes d.hash
        · rw [if_pos hk] at hl2
          cases hl2
          have := mem_sortSliceByModified (g3 ++ [d]) r hr2
          rcases List.mem_append.mp this with h3 | h3
          · right; exact ⟨hexOfBytes d.hash, g3, hl, h3⟩
          · left; simp at h3; simp [h3]
        · rw [if_neg hk] at hl2
          right; exact ⟨k2, g2, hl2, hr2⟩
      | none =>
        rw [findDuplicatesStep_absent s d hl] at hl2
        simp only at hl2
        rw [lookupReg_setReg] at hl2
        by_cases hk : k2 = hexOfBytes d.hash
        · rw [if_pos hk] at hl2
          cases hl2
          simp at hr2
          left; simp [hr2]
        · rw [if_neg hk] at hl2
          right; exact ⟨k2, g2, hl2, hr2⟩

/-
Lemmas about the manifest written by `exportDuplicates` and about
`deleteDuplicates`.
-/

theorem splitNl_append (p rest : List Char) (hp : '\n' ∉ p) :
    splitNl (p ++ '\n' :: rest) = p :: splitNl rest := by
  induction p with
  | nil => simp [splitNl]
  | cons c p ih =>
    have hc : ¬ c = '\n' := fun h => hp (by simp [h])
    have hrest : '\n' ∉ p := fun h => hp (List.mem_cons_of_mem c h)
    rw [List.cons_append, splitNl, if_neg hc, ih hrest]

theorem splitNl_manifest (l : List String) (h : ∀ p ∈ l, '\n' ∉ p.data) :
    splitNl (l.foldr (fun p acc => p.data ++ '\n' :: acc) []) =
      l.map String.data ++ [[]] := by
  induction l with
  | nil => simp [splitNl]
  | cons p l ih =>
    rw [List.foldr_cons, splitNl_append p.data _ (h p (List.mem_cons_self p l)),
      ih (fun q hq => h q (List.mem_cons_of_mem p hq))]
    simp

theorem linesOf_exportContent (reg : List (String × List tFileData))
    (h : ∀ p ∈ listDuplicates reg, '\n' ∉ p.data) :
    linesOf (exportContent reg) = (listDuplicates reg).map String.data := by
  unfold linesOf exportContent
  rw [splitNl_manifest (listDuplicates reg) h]
  simp

/-- The number of duplicate paths listed equals the sum over groups of
(memberCount - 1): empty or singleton groups contribute nothing, a group
of n at least 2 contributes its n-1 tail members. -/
theorem length_listDuplicates (reg : List (String × List tFileData)) :
    (listDuplicates reg).length = groupExcessSum reg := by
  induction reg with
  | nil => rfl
  | cons p rest ih =>
    obtain ⟨k, g⟩ := p
    by_cases h : g.length < 2
    · rw [listDuplicates, if_pos h]
      show (listDuplicates rest).length = (g.length - 1) + groupExcessSum rest
      rw [ih]
      omega
    · rw [listDuplicates, if_neg h]
      rw [groupExcessSum, List.length_append, List.length_map, List.length_tail, ih]

/-
Remaining helper lemmas.
-/

/-- Collapsed evaluation of `walk` on a non-nil `FileInfo`: a record is
emitted exactly for a regular file of positive size; the separate
`IsDir()` test is unreachable because a directory is never regular. -/
theorem walk_some_eval (i : FileInfo) (e : Bool) :
    walk (some i) e =
      if i.kind = FileKind.regular ∧ 0 < i.size then
        WalkOutcome.emit ⟨i.path, i.size, [], i.modTime⟩
      else WalkOutcome.skip := by
  by_cases h1 : i.kind = FileKind.regular
  · by_cases h2 : 0 < i.size
    · simp [walk, h1, h2]
    · simp [walk, h1, h2]
  · simp [walk, h1]

theorem head_le_of_pairwise (g : List tFileData) (h : List.Pairwise modLe g)
    (r : tFileData) (hr : r ∈ g) (hne : g ≠ []) :
    (g.head hne).modified ≤ r.modified := by
  cases g with
  | nil => exact absurd rfl hne
  | cons x t =>
    rcases List.mem_cons.mp hr with h2 | h2
    · rw [h2]
      exact le_refl _
    · exact (List.pairwise_cons.mp h).1 r h2

/-
The claims.
-/

/-- C1: the spec claims that after every incoming record,
`duplicateCount` equals the sum over groups of max(0, memberCount-1) and
`duplicateBytes` equals the sum of the sizes of all non-canonical
members, "even when the newly joining record re-ranks as the canonical
member". On `rsC1` the second record (size 20, modified 3) joins the
first (size 10, modified 5) and re-ranks as canonical, but the code adds
the JOINING record's size to `stats.duplicateSize` (main.go line 225):
the counter reads 20 while the sum over non-canonical members is 10, so
the claimed pair of identities is false at this reachable point. -/
theorem C1_counterexample :
    ¬ ((findDuplicates rsC1).duplicates =
          u32 (groupExcessSum (findDuplicates rsC1).registry) ∧
        (findDuplicates rsC1).duplicateSize =
          u64 (nonCanonicalBytes (findDuplicates rsC1).registry)) := by
  decide

/-- C1 (amended): after every prefix of the incoming stream, the
duplicate counter equals (mod 2^32, being a uint32) the sum over groups
of max(0, memberCount-1); the duplicate-bytes counter equals (mod 2^64)
the sum of the sizes of every record that joined an already-existing
group — i.e. of all members except each group's first-ARRIVING member.
This coincides with the claimed sum over non-canonical members only when
each group's first arrival stays canonical or sizes agree. -/
theorem C1_counter_identities_amended (rs : List tFileData) :
    (findDuplicates rs).duplicates =
      u32 (groupExcessSum (findDuplicates rs).registry) ∧
    (findDuplicates rs).duplicateSize = u64 (joiningBytes [] rs) := by
  constructor
  · exact (countInv_foldl rs initAgg countInv_init).2
  · have h := duplicateSize_foldl rs initAgg (by decide)
    simpa [initAgg, regKeys, findDuplicates] using h

/-- C2: the spec claims members are kept sorted ascending by modified
time WITH TIES KEEPING ARRIVAL ORDER (a stable sort). The code calls
`sort.Slice`, which is not stable: feeding the seven records of `rsC2`
(pA then pB tie at modified 10, pA arriving first), the stored group
`gC2` holds pB at index 1 and pA at index 2 — the tied pair is inverted
relative to arrival order. The ascending-order half of the claim does
hold (see the amended theorem). -/
theorem C2_counterexample :
    lookupReg (findDuplicates rsC2).registry "00" = some gC2 ∧
    (rsC2.get ⟨0, by decide⟩).path = "pA" ∧
    (rsC2.get ⟨1, by decide⟩).path = "pB" ∧
    (gC2.get ⟨1, by decide⟩).path = "pB" ∧
    (gC2.get ⟨2, by decide⟩).path = "pA" ∧
    (gC2.get ⟨1, by decide⟩).modified = (gC2.get ⟨2, by decide⟩).modified := by
  decide

/-- C2 (amended): at every point, every stored group is sorted
non-decreasing by modified time and member 0 is an earliest-modified
member; the tie-breaking order among equal modified times is NOT the
arrival order in general. -/
theorem C2_groups_sorted_amended (rs : List tFileData) (k : String)
    (g : List tFileData)
    (hg : lookupReg (findDuplicates rs).registry k = some g) :
    List.Pairwise modLe g ∧
      ∀ r ∈ g, ∀ hne : g ≠ [], (g.head hne).modified ≤ r.modified := by
  have hs : List.Pairwise modLe g :=
    sortedInv_foldl rs initAgg sortedInv_init k g hg
  exact ⟨hs, fun r hr hne => head_le_of_pairwise g hs r hr hne⟩

theorem C2_groups_sorted_amended_witness :
    List.Pairwise modLe [rW] ∧
      ∀ r ∈ [rW], ∀ hne : [rW] ≠ ([] : List tFileData),
        (([rW]).head hne).modified ≤ r.modified :=
  C2_groups_sorted_amended [rW] "" [rW] (by decide)

/-- C3: the spec claims a read failure or a bytes-read/size mismatch
drops the file from the pipeline with a per-file error while the worker
continues. In the code, `calculateChecksum` discards the byte count
returned by `checksum` (main.go line 207), so the mismatched record
`dMismatch` (reported size 100, actual content 3 bytes) is still
fingerprinted and forwarded to the aggregator; and a failing read hits
`panicErr`/`log.Panicln`, so with `dBad` ahead in the queue the worker
dies and the healthy file behind it is never processed. -/
theorem C3_counterexample :
    calculateChecksum fsC3 [dMismatch] =
      ([⟨"short", 100, crc32SumBytes [1, 2, 3], 0⟩], false) ∧
    dMismatch.size ≠ (3 : Int) ∧
    calculateChecksum fsC3 [dBad, dMismatch] = ([], true) := by
  decide

/-- C3 (amended): the worker fingerprints and forwards every record up
to the first failing read, using the bytes actually read and never
comparing their count with the reported size; at the first failing read
it panics (crashing the process), so no per-file error is recorded and
the rest of the queue is abandoned. -/
theorem C3_worker_amended (fs : ReadFs) (ds : List tFileData) :
    calculateChecksum fs ds =
      ((ds.takeWhile fun d => readOk (fs d.path)).map
          (fun d => { d with hash := hashOfRead (fs d.path) }),
        ds.any fun d => ¬ readOk (fs d.path)) := by
  induction ds with
  | nil => simp [calculateChecksum]
  | cons d rest ih =>
    cases hr : fs d.path with
    | ioFailure =>
      simp [calculateChecksum, hr, checksum, List.takeWhile, readOk, List.any_cons]
    | content bs =>
      simp [calculateChecksum, hr, checksum, List.takeWhile, readOk, List.any_cons,
        hashOfRead, ih]

/-- C4: the spec claims a single failed removal does not abort the batch
and that the operation returns successCount plus per-file errors (with
three duplicates and one permission failure: successCount = 2, one
ActionError). In the code `deleteDuplicates` calls `panicErr` on the
first failing `os.Remove` (main.go line 116): with duplicates
[p1, p2, p3] and p2 failing, only p1 is removed, p3 is never attempted,
and the run panics instead of returning any count or error list. -/
theorem C4_counterexample :
    deleteDuplicates failsC4 ["p1", "p2", "p3"] = (["p1"], true) ∧
    "p3" ∉ (deleteDuplicates failsC4 ["p1", "p2", "p3"]).1 := by
  decide

/-- C4 (amended): Delete removes duplicates in order only up to the
first failure: the removed files are exactly the longest failure-free
prefix, and the run panics (aborting the batch, returning nothing) iff
any removal fails; only a fully successful run deletes everything and
logs the count. -/
theorem C4_delete_amended (fails : String → Bool) (paths : List String) :
    deleteDuplicates fails paths =
      (paths.takeWhile (fun p => !fails p), paths.any fails) := by
  induction paths with
  | nil => rfl
  | cons p rest ih =>
    by_cases h : fails p = true
    · rw [deleteDuplicates, if_pos h]
      simp [List.takeWhile, h]
    · rw [deleteDuplicates, if_neg h]
      have hb : fails p = false := by
        cases hf : fails p
        · rfl
        · exact absurd hf h
      simp [List.takeWhile, hb, ih]

/-- C5: Move relocates each non-canonical member into the destination
directory under its base name and leaves the canonical file alone; both
hold in the code, but the claimed deterministic collision resolution does
not exist: `moveDuplicates` calls `os.Rename(path, targetDir/Base(path))`
with no existence check (main.go line 134). On `regC5`, whose two
duplicates "a/f" and "b/f" share base name "f", both are renamed onto the
same destination entry and the second rename silently replaces the first:
only the file from "b/f" survives in the destination, the content of
"a/f" is lost, and the canonical "c/f" is untouched (never listed). The
spec itself calls this unconditional overwrite a defect, so this is a
code bug rather than a spec error. -/
theorem C5_move_overwrites_bug :
    listDuplicates regC5 = ["a/f", "b/f"] ∧
    base "a/f" = base "b/f" ∧
    moveDuplicates (listDuplicates regC5) = [("f", "b/f")] ∧
    (∀ e ∈ moveDuplicates (listDuplicates regC5), e.2 ≠ "a/f") ∧
    "c/f" ∉ listDuplicates regC5 := by
  decide

/-- C6: the spec claims a traversal error on one entry is reported and
traversal continues. The code's `walk` ignores `err` (an empty TODO
block, nothing reported) and then calls `info.Mode()`: when the entry's
`lstat` failed, `filepath.Walk` hands it a nil `info`, and the
dereference panics, killing the scan goroutine and the process — the
first conjunct. (For a directory whose listing failed, `info` is the
directory's own non-nil stat and the callback merely skips it, silently —
the second conjunct — so even the surviving path reports nothing.) The
surrounding `if err != nil` TODO shows continuing was the intent, so this
is recorded as a code bug at the nil-info input. -/
theorem C6_walk_crash_bug :
    walk none true = WalkOutcome.nilDeref ∧
    walk (some ⟨"/d", 0, FileKind.dir, 0⟩) true = WalkOutcome.skip := by
  decide

/-- C7: the spec claims the manifest holds one ABSOLUTE path per line and
that parsing it back as a line set yields exactly the set of
non-canonical paths. Paths are written verbatim with a newline appended
(main.go lines 151-153): for `regC7`, whose single duplicate path is the
relative, newline-containing "a\nb" (legal in POSIX file names), the
manifest parses back as the two lines "a" and "b" — the duplicate path
itself is not among the lines, and no line is absolute. -/
theorem C7_counterexample :
    "a\nb" ∈ listDuplicates regC7 ∧
    ("a\nb").data ∉ linesOf (exportContent regC7) ∧
    (∀ l ∈ linesOf (exportContent regC7), l.head? ≠ some '/') := by
  decide

/-- C7 (amended): Export writes each non-canonical path verbatim (so a
line is absolute only if the path was discovered absolute) followed by a
newline, and logs one count per path written, which equals the sum over
groups of max(0, memberCount-1); provided no listed path contains a
newline, parsing the manifest back as lines yields exactly the
non-canonical paths of groups with at least two members. -/
theorem C7_export_amended (reg : List (String × List tFileData))
    (h : ∀ p ∈ listDuplicates reg, '\n' ∉ p.data) :
    linesOf (exportContent reg) = (listDuplicates reg).map String.data ∧
      (exportDuplicates reg).2 = groupExcessSum reg :=
  ⟨linesOf_exportContent reg h, length_listDuplicates reg⟩

theorem C7_export_amended_witness :
    linesOf (exportContent regW7) = (listDuplicates regW7).map String.data ∧
      (exportDuplicates regW7).2 = groupExcessSum regW7 :=
  C7_export_amended regW7 (by decide)

/-- C8: the walker emits a record exactly for a regular file of strictly
positive size — directories, symlinks, devices, sockets and zero-byte
files are skipped before fingerprinting — and every member of every
registry group is one of the records the aggregator consumed, so nothing
the walker skipped can appear in the registry (the stats counters are
likewise only ever advanced by `findDuplicates` on a consumed record). -/
theorem C8_walker_filters :
    (∀ (i : FileInfo) (e : Bool) (r : tFileData),
        walk (some i) e = WalkOutcome.emit r →
          i.kind = FileKind.regular ∧ 0 < i.size ∧
            r = ⟨i.path, i.size, [], i.modTime⟩) ∧
    (∀ (i : FileInfo) (e : Bool),
        i.kind ≠ FileKind.regular ∨ i.size ≤ 0 →
          walk (some i) e = WalkOutcome.skip) ∧
    (∀ (rs : List tFileData) (k : String) (g : List tFileData) (r : tFileData),
        lookupReg (findDuplicates rs).registry k = some g → r ∈ g → r ∈ rs) := by
  refine ⟨?_, ?_, ?_⟩
  · intro i e r h
    rw [walk_some_eval] at h
    by_cases hc : i.kind = FileKind.regular ∧ 0 < i.size
    · rw [if_pos hc] at h
      exact ⟨hc.1, hc.2, (WalkOutcome.emit.inj h).symm⟩
    · rw [if_neg hc] at h
      cases h
  · intro i e h
    rw [walk_some_eval, if_neg]
    intro hc
    rcases h with h | h
    · exact h hc.1
    · exact absurd hc.2 (Int.not_lt.mpr h)
  · intro rs k g r hg hr
    rcases mem_group_foldl rs initAgg k g r hg hr with h | ⟨k2, g2, hl, _⟩
    · exact h
    · exact Option.noConfusion hl

theorem C8_walker_filters_witness :
    ((⟨"/a", 5, FileKind.regular, 7⟩ : FileInfo).kind = FileKind.regular ∧
        0 < (⟨"/a", 5, FileKind.regular, 7⟩ : FileInfo).size ∧
        rW = ⟨"/a", 5, [], 7⟩) ∧
      walk (some ⟨"/s", 5, FileKind.symlink, 7⟩) false = WalkOutcome.skip ∧
      walk (some ⟨"/z", 0, FileKind.regular, 7⟩) false = WalkOutcome.skip ∧
      rW ∈ [rW] :=
  ⟨C8_walker_filters.1 ⟨"/a", 5, FileKind.regular, 7⟩ false rW rfl,
    C8_walker_filters.2.1 ⟨"/s", 5, FileKind.symlink, 7⟩ false (Or.inl (by decide)),
    C8_walker_filters.2.1 ⟨"/z", 0, FileKind.regular, 7⟩ false (Or.inr (by decide)),
    C8_walker_filters.2.2 [rW] "" [rW] rW (by decide) (by decide)⟩

/-- C9: the spec claims the scan-complete flag is never observed true
while a dispatched fingerprint job is unfinished or unconsumed, with
completion tracked as an explicit three-way handshake. In the code,
`scan` sets `stats.complted = true` the moment `filepath.Walk` returns
(main.go line 202), consulting nothing else: in the reachable state
`sC9` the flag is already true while the emitted record still sits
unprocessed in `fileChannel`. -/
theorem C9_counterexample :
    PipeReach fsPipe (initPipe [fC9]) sC9 ∧
      sC9.complted = true ∧ sC9.fileQueue ≠ [] := by
  refine ⟨?_, rfl, by decide⟩
  have h1 : PipeStep fsPipe (initPipe [fC9]) ⟨[], [fC9], [], initAgg, false⟩ := by
    have h := @PipeStep.walkEmit fsPipe fC9 [] [] [] initAgg false
    simpa using h
  have h2 : PipeStep fsPipe ⟨[], [fC9], [], initAgg, false⟩ sC9 :=
    PipeStep.walkDone [fC9] [] initAgg
  exact Relation.ReflTransGen.tail (Relation.ReflTransGen.single h1) h2

/-- C9 (amended): the flag only ever guarantees that the Walker finished
enumerating (no record is still pending emission); it says nothing about
the fingerprint queues, whose jobs may be queued, in flight, or
unconsumed while the flag is already true. -/
theorem C9_completion_amended (fs : ReadFs) (files : List tFileData)
    (s : PipeState) (h : PipeReach fs (initPipe files) s)
    (hc : s.complted = true) : s.pending = [] := by
  revert hc
  induction h with
  | refl => intro hc; cases hc
  | tail hab hstep ih =>
    intro hc
    cases hstep with
    | walkEmit d rest q cq a c => cases ih hc
    | walkDone q cq a => rfl
    | workerTake d bs p q cq a c hfs => exact ih hc
    | aggTake d p q cq a c => exact ih hc

theorem C9_completion_amended_witness :
    (⟨[], [], [], initAgg, true⟩ : PipeState).pending = [] :=
  C9_completion_amended fsPipe [] ⟨[], [], [], initAgg, true⟩
    (Relation.ReflTransGen.single (PipeStep.walkDone [] [] initAgg)) rfl

/-- C10: grouping is keyed solely by the hex string of the CRC-32 (IEEE)
digest: "plumless" and "buckeroo" are different contents with equal
CRC-32, and for ANY two records whose hex keys agree — their sizes,
paths and underlying bytes are never consulted — the aggregator puts the
second into the first's group (ordered by the sort comparison) and
counts it as a duplicate. -/
theorem C10_fingerprint_grouping :
    crc32Sum32 (stringBytes "plumless") = crc32Sum32 (stringBytes "buckeroo") ∧
    stringBytes "plumless" ≠ stringBytes "buckeroo" ∧
    (∀ r1 r2 : tFileData, hexOfBytes r1.hash = hexOfBytes r2.hash →
      lookupReg (findDuplicates [r1, r2]).registry (hexOfBytes r1.hash) =
        some (if modLt r2 r1 then [r2, r1] else [r1, r2]) ∧
      (findDuplicates [r1, r2]).duplicates = 1 ∧
      (findDuplicates [r1, r2]).count = 2) := by
  refine ⟨by decide, by decide, ?_⟩
  intro r1 r2 h
  have e0 : findDuplicates [r1, r2] =
      findDuplicatesStep (findDuplicatesStep initAgg r1) r2 := rfl
  have hl1 : lookupReg initAgg.registry (hexOfBytes r1.hash) = none := rfl
  rw [e0, findDuplicatesStep_absent initAgg r1 hl1]
  have hl2 : lookupReg (setReg initAgg.registry (hexOfBytes r1.hash) [r1])
      (hexOfBytes r2.hash) = some [r1] := by
    show (if hexOfBytes r1.hash = hexOfBytes r2.hash then some [r1]
      else lookupReg [] (hexOfBytes r2.hash)) = some [r1]
    rw [if_pos h]
  rw [findDuplicatesStep_present _ r2 [r1] hl2]
  refine ⟨?_, rfl, rfl⟩
  show lookupReg (setReg (setReg initAgg.registry (hexOfBytes r1.hash) [r1])
      (hexOfBytes r2.hash) (sortSliceByModified ([r1] ++ [r2])))
      (hexOfBytes r1.hash) = _
  rw [lookupReg_setReg, if_pos h]
  rfl

theorem C10_fingerprint_grouping_witness :
    (lookupReg (findDuplicates [rPlum, rBuck]).registry (hexOfBytes rPlum.hash) =
        some (if modLt rBuck rPlum then [rBuck, rPlum] else [rPlum, rBuck]) ∧
      (findDuplicates [rPlum, rBuck]).duplicates = 1 ∧
      (findDuplicates [rPlum, rBuck]).count = 2) ∧
    rPlum.size ≠ rBuck.size :=
  ⟨C10_fingerprint_grouping.2.2 rPlum rBuck (by decide), by decide⟩

end DupFu
